import Mathlib

/-
  Verification development for the model-organizer task manager
  (mo_helper.py).  The core state is a YAML task table ("Mo.yaml",
  mapping numeric order keys to either a single task name (serial) or a
  mapping from slot letters to names (parallel)) plus a directory
  listing of backing folders named "{order}{letters}_{name}".

  Modelling conventions:
  * strings are lists of characters; character classes are the ASCII
    classes the tool effectively uses (digits 0-9 for str.isdigit and
    the regex \d, letters a-z for [a-z]);
  * the YAML `tasks` mapping is an insertion-ordered association list;
    its keys are modelled as the natural numbers they denote (the tool
    itself always writes canonical decimal keys);
  * Python dict assignment/pop are modelled by in-place-replace insert
    and key removal on the association list;
  * every `click.confirm` answer is an explicit boolean parameter;
  * fallible operations return `Except Err`; an error result means the
    operation raised before committing the config document.
-/

namespace MoHelper

/-- ASCII decimal digit test: model of Python's digit class as used on the
folder regex and on position strings. -/
def isDigitCh (c : Char) : Bool := 48 ≤ c.toNat && c.toNat ≤ 57

/-- ASCII lowercase letter test: model of the regex class [a-z]. -/
def isLowerCh (c : Char) : Bool := 97 ≤ c.toNat && c.toNat ≤ 122

/-- Numeric value of a digit character, as used by int() on digit strings. -/
def digitVal (c : Char) : Nat := c.toNat - 48

/-- Accumulating evaluation of a decimal digit string, big-endian:
model of Python's int() applied to a string of digits. -/
def strToNatAcc (acc : Nat) : List Char → Nat
  | [] => acc
  | c :: cs => strToNatAcc (10 * acc + digitVal c) cs

/-- Model of int() on a digit string. -/
def strToNat (s : List Char) : Nat := strToNatAcc 0 s

/-- Fuel-driven decimal rendering, mirroring the standard digit-peeling
loop (least significant digit first, accumulated onto the front). -/
def natToStrCore : Nat → Nat → List Char → List Char
  | 0, _, acc => acc
  | fuel + 1, n, acc =>
    if n / 10 = 0 then Char.ofNat (48 + n % 10) :: acc
    else natToStrCore fuel (n / 10) (Char.ofNat (48 + n % 10) :: acc)

/-- Model of Python str() on a non-negative integer (canonical decimal). -/
def natToStr (n : Nat) : List Char := natToStrCore (n + 1) n []

/-- Lexicographic code-point comparison on strings: model of Python's
string `<`. -/
def strLtB : List Char → List Char → Bool
  | [], [] => false
  | [], _ :: _ => true
  | _ :: _, [] => false
  | a :: as, b :: bs =>
    if a.toNat < b.toNat then true
    else if b.toNat < a.toNat then false
    else strLtB as bs

/-- Association-list lookup (Python dict read). -/
def alLookup {κ α : Type} [DecidableEq κ] (k : κ) : List (κ × α) → Option α
  | [] => none
  | (k2, v) :: rest => if k2 = k then some v else alLookup k rest

/-- Association-list write (Python dict assignment: replace in place if the
key exists, else append at the end, preserving insertion order). -/
def alInsert {κ α : Type} [DecidableEq κ] (k : κ) (v : α) : List (κ × α) → List (κ × α)
  | [] => [(k, v)]
  | (k2, v2) :: rest => if k2 = k then (k, v) :: rest else (k2, v2) :: alInsert k v rest

/-- Association-list removal (Python dict pop of an existing key). -/
def alErase {κ α : Type} [DecidableEq κ] (k : κ) : List (κ × α) → List (κ × α)
  | [] => []
  | (k2, v2) :: rest => if k2 = k then rest else (k2, v2) :: alErase k rest

/-- The keys of an association list, in insertion order. -/
def alKeys {κ α : Type} (l : List (κ × α)) : List κ := l.map Prod.fst

/-- Insert into a list sorted by `le`, keeping it sorted. -/
def insertBy {α : Type} (le : α → α → Bool) (x : α) : List α → List α
  | [] => [x]
  | y :: ys => if le x y then x :: y :: ys else y :: insertBy le x ys

/-- Insertion sort by `le`: model of Python's sorted() with the matching
key order (ascending for `le = ≤`, descending for the flipped test). -/
def sortBy {α : Type} (le : α → α → Bool) : List α → List α
  | [] => []
  | x :: xs => insertBy le x (sortBy le xs)

/-- Ascending comparison on naturals, for sorted() on integer keys. -/
def natLeB (a b : Nat) : Bool := decide (a ≤ b)

/-- Descending comparison on naturals, for sorted(..., reverse=True). -/
def natGeB (a b : Nat) : Bool := decide (b ≤ a)

/-- Descending comparison on strings, for sorted(strings, reverse=True). -/
def strGeB (a b : List Char) : Bool := !(strLtB a b)

/-- Model of the folder-name regex ^(\d+)([a-z]*)_(.+)$ : the maximal
leading digit run (nonempty), then the maximal lowercase run, then a
mandatory underscore, then a nonempty remainder. -/
def matchFolder (d : List Char) : Option (List Char × List Char × List Char) :=
  if (d.takeWhile isDigitCh).isEmpty then none
  else
    match (d.dropWhile isDigitCh).dropWhile isLowerCh with
    | '_' :: rest =>
      if rest.isEmpty then none
      else some (d.takeWhile isDigitCh, (d.dropWhile isDigitCh).takeWhile isLowerCh, rest)
    | _ => none

/-- The position key a folder name is indexed under by the scanners:
its digit run concatenated with its letter run. -/
def posKeyOf (d : List Char) : Option (List Char) :=
  (matchFolder d).map (fun x => x.1 ++ x.2.1)

/-- The value stored under an order key in the YAML tasks table: a plain
name (serial group) or a letter-to-name mapping (parallel group). -/
inductive GroupVal : Type where
  | serial (name : List Char)
  | par (slots : List (List Char × List Char))
  deriving DecidableEq

/-- The durable project state: the tasks table of the configuration
document and the names of the directories in the project root. -/
structure PState : Type where
  tasks : List (Nat × GroupVal)
  dirs : List (List Char)
  deriving DecidableEq

/-- Model of the Task record (numeric order, optional slot letters, task
name, backing folder name). -/
structure MTask : Type where
  pos : Nat
  letter : Option (List Char)
  name : List Char
  folder : List Char
  deriving DecidableEq

/-- Task.full_position(): the order rendered in decimal followed by the
slot letters, if any. -/
def fullPos (t : MTask) : List Char := natToStr t.pos ++ t.letter.getD []

/-- Model of TaskGroup: the tasks sharing one order.  The prev/next links
of the Python doubly linked list are navigation sugar fully determined by
the sorted group list, so they are not materialised here. -/
structure MGroup : Type where
  pos : Nat
  tasks : List MTask
  deriving DecidableEq

/-- The TaskGroup built from one YAML entry (structure only, folder names
derived from the config before disk reconciliation). -/
def groupOfVal (k : Nat) (v : GroupVal) : MGroup :=
  match v with
  | .serial name => ⟨k, [⟨k, none, name, natToStr k ++ '_' :: name⟩]⟩
  | .par slots => ⟨k, slots.map (fun s => ⟨k, some s.1, s.2, natToStr k ++ s.1 ++ '_' :: s.2⟩)⟩

/-- The groups dictionary keyed by numeric order, built by iterating the
tasks table. -/
def buildGroupsMap (tasks : List (Nat × GroupVal)) : List (Nat × MGroup) :=
  tasks.foldl (fun m kv => alInsert kv.1 (groupOfVal kv.1 kv.2) m) []

/-- One step of the directory scan: index a matching directory under its
position key, ignore a non-matching one. -/
def scanStep (m : List (List Char × List Char)) (d : List Char) :
    List (List Char × List Char) :=
  match matchFolder d with
  | some x => alInsert (x.1 ++ x.2.1) d m
  | none => m

/-- The found_folders index: every directory matching the folder pattern,
keyed by its position key (later directories overwrite earlier ones, as
in the Python dict). -/
def scanFolders (dirs : List (List Char)) : List (List Char × List Char) :=
  dirs.foldl scanStep []

/-- Errors raised by the operations (one constructor per raise site). -/
inductive Err : Type where
  | configMissing
  | malformedPosition
  | positionOutOfRange
  | missingFolder (p : List Char) (name : List Char)
  | duplicateSlot
  | conversionDeclined
  | noGroupAt
  | serialNoParallel
  | noTaskAt
  | sourceNotFound
  | sourceTaskNotFound
  | noLetterForSerial
  | destExists
  | destOutOfRange
  deriving DecidableEq

/-- Overwrite each task's folder with the directory actually found for its
full position, failing on the first task with no matching directory. -/
def resolveTasks (found : List (List Char × List Char)) : List MTask → Except Err (List MTask)
  | [] => .ok []
  | t :: ts =>
    match alLookup (fullPos t) found with
    | none => .error (.missingFolder (fullPos t) t.name)
    | some f =>
      match resolveTasks found ts with
      | .error e => .error e
      | .ok ts2 => .ok (MTask.mk t.pos t.letter t.name f :: ts2)

/-- Reconcile every group of the groups dictionary against the folder
index. -/
def resolveGroups (found : List (List Char × List Char)) :
    List (Nat × MGroup) → Except Err (List (Nat × MGroup))
  | [] => .ok []
  | (k, g) :: rest =>
    match resolveTasks found g.tasks with
    | .error e => .error e
    | .ok ts2 =>
      match resolveGroups found rest with
      | .error e => .error e
      | .ok rest2 => .ok ((k, MGroup.mk g.pos ts2) :: rest2)

/-- build_task_groups: construct groups from the config, reconcile each
task against the scanned directories, then return the groups sorted by
order.  The configuration document itself is returned unchanged by the
Python function, so it is not duplicated here. -/
def buildTaskGroups (st : PState) : Except Err (List MGroup) :=
  match resolveGroups (scanFolders st.dirs) (buildGroupsMap st.tasks) with
  | .error e => .error e
  | .ok gmap2 =>
    .ok ((sortBy natLeB (alKeys gmap2)).filterMap (fun p => alLookup p gmap2))

/-- parse_position: one pass over the string collecting digit characters
into the numeric part and every other character into the letter part;
fails only when no digit was collected. -/
def parsePosition (s : List Char) : Except Err (List Char × Option (List Char)) :=
  let digits := s.filter isDigitCh
  let letters := s.filter (fun c => !(isDigitCh c))
  if digits.isEmpty then .error .malformedPosition
  else .ok (digits, if letters.isEmpty then none else some letters)

/-- The directories the +1 shift will touch: every directory matching the
folder pattern whose numeric part is at least the start order.  The
configuration document plays no part in the selection. -/
def shiftAffected (start : Nat) (dirs : List (List Char)) : List (List Char) :=
  dirs.filter
    (fun d =>
      match matchFolder d with
      | some x => decide (start ≤ strToNat x.1)
      | none => false)

/-- The folder name after a +1 shift: the numeric part incremented and
re-rendered, letters and task name unchanged. -/
def bumpName (d : List Char) : List Char :=
  match matchFolder d with
  | some x => natToStr (strToNat x.1 + 1) ++ x.2.1 ++ '_' :: x.2.2
  | none => d

/-- The (old, new) folder rename pairs issued by a +1 shift, in execution
order: the affected directory names sorted in reverse (descending
lexicographic) order, each paired with its bumped name. -/
def shiftRenames (start : Nat) (dirs : List (List Char)) : List (List Char × List Char) :=
  (sortBy strGeB (shiftAffected start dirs)).map (fun d => (d, bumpName d))

/-- Replace one directory name by another, if present (a collision-free
git mv). -/
def renameIn (dirs : List (List Char)) (o n : List Char) : List (List Char) :=
  dirs.map (fun d => if d = o then n else d)

/-- Apply a rename sequence to the directory listing, skipping entries
whose source no longer exists (the os.path.exists guard). -/
def applyRenames (dirs : List (List Char)) (rs : List (List Char × List Char)) :
    List (List Char) :=
  rs.foldl (fun ds r => if r.1 ∈ ds then renameIn ds r.1 r.2 else ds) dirs

/-- The YAML half of the +1 shift: every key at least the start order,
processed in descending order, popped and re-inserted under key+1. -/
def shiftYaml (start : Nat) (tasks : List (Nat × GroupVal)) : List (Nat × GroupVal) :=
  let ks := sortBy natGeB ((alKeys tasks).filter (fun k => decide (start ≤ k)))
  ks.foldl
    (fun t k =>
      match alLookup k t with
      | some v => alInsert (k + 1) v (alErase k t)
      | none => t)
    tasks

/-- shift_task_groups: rename every affected folder (descending name
order), then renumber the YAML keys.  Note the only delta the source
implements is +1. -/
def shiftTaskGroups (start : Nat) (st : PState) : PState :=
  ⟨shiftYaml start st.tasks, applyRenames st.dirs (shiftRenames start st.dirs)⟩

/-- The tail of add_task: create the new task folder (kept as-is when it
already exists, whatever the overwrite prompt answers) and commit the
updated tasks table (add_task writes Mo.yaml directly, without a
confirmation). -/
def finishAdd (pos : Nat) (letterOpt : Option (List Char)) (nameStr : List Char)
    (tasks : List (Nat × GroupVal)) (dirs : List (List Char)) : PState :=
  let pfx := natToStr pos ++ letterOpt.getD []
  let tf := pfx ++ '_' :: nameStr
  ⟨tasks, if tf ∈ dirs then dirs else dirs ++ [tf]⟩

/-- add_task.  `cConv` is the answer to the serial-to-parallel conversion
prompt. -/
def addTask (cConv : Bool) (posStr nameStr : List Char) (st : PState) : Except Err PState :=
  match buildTaskGroups st with
  | .error e => .error e
  | .ok gs =>
    match parsePosition posStr with
    | .error e => .error e
    | .ok (digits, letterOpt) =>
      let pos := strToNat digits
      if pos > gs.length + 1 then .error .positionOutOfRange
      else
        match letterOpt with
        | none =>
          match alLookup pos st.tasks with
          | none => .ok (finishAdd pos none nameStr (alInsert pos (.serial nameStr) st.tasks) st.dirs)
          | some _ =>
            let st1 := shiftTaskGroups pos st
            .ok (finishAdd pos none nameStr (alInsert pos (.serial nameStr) st1.tasks) st1.dirs)
        | some l =>
          match alLookup pos st.tasks with
          | none =>
            .ok (finishAdd pos (some l) nameStr (alInsert pos (.par [(l, nameStr)]) st.tasks) st.dirs)
          | some (.par slots) =>
            if (alLookup l slots).isSome then .error .duplicateSlot
            else
              .ok (finishAdd pos (some l) nameStr
                (alInsert pos (.par (alInsert l nameStr slots)) st.tasks) st.dirs)
          | some (.serial ex) =>
            let oldF := natToStr pos ++ '_' :: ex
            let newF := natToStr pos ++ 'b' :: '_' :: ex
            let newVal : GroupVal := .par (alInsert l nameStr [(['b'], ex)])
            if oldF ∈ st.dirs then
              if cConv then
                .ok (finishAdd pos (some l) nameStr (alInsert pos newVal st.tasks)
                  (renameIn st.dirs oldF newF))
              else .error .conversionDeclined
            else
              .ok (finishAdd pos (some l) nameStr (alInsert pos newVal st.tasks) st.dirs)

/-- delete_task.  `cDel` answers the folder-deletion prompt, `cFlat` the
flatten-rename prompt, `cSave` the Mo.yaml overwrite prompt of
save_yaml (a declined save leaves the on-disk document unchanged). -/
def deleteTask (cDel cFlat cSave : Bool) (posStr : List Char) (st : PState) : Except Err PState :=
  match buildTaskGroups st with
  | .error e => .error e
  | .ok _ =>
    match parsePosition posStr with
    | .error e => .error e
    | .ok (digits, letterOpt) =>
      let pos := strToNat digits
      match alLookup pos st.tasks with
      | none => .error .noGroupAt
      | some v =>
        match letterOpt, v with
        | none, .serial name =>
          let folder := natToStr pos ++ '_' :: name
          let dirs1 :=
            if folder ∈ st.dirs then (if cDel then st.dirs.erase folder else st.dirs) else st.dirs
          let st1 := shiftTaskGroups (pos + 1) ⟨alErase pos st.tasks, dirs1⟩
          .ok ⟨if cSave then st1.tasks else st.tasks, st1.dirs⟩
        | some _, .serial _ => .error .serialNoParallel
        | none, .par _ => .error .noTaskAt
        | some l, .par slots =>
          match alLookup l slots with
          | none => .error .noTaskAt
          | some tname =>
            let slots1 := alErase l slots
            let folder := natToStr pos ++ l ++ '_' :: tname
            let dirs1 :=
              if folder ∈ st.dirs then (if cDel then st.dirs.erase folder else st.dirs) else st.dirs
            match slots1 with
            | (rl, rn) :: [] =>
              let oldF := natToStr pos ++ rl ++ '_' :: rn
              let newF := natToStr pos ++ '_' :: rn
              let dirs2 :=
                if oldF ∈ dirs1 then (if cFlat then renameIn dirs1 oldF newF else dirs1) else dirs1
              let tasks2 := alInsert pos (.serial rn) (alInsert pos (.par slots1) st.tasks)
              .ok ⟨if cSave then tasks2 else st.tasks, dirs2⟩
            | _ =>
              let tasks1 := alInsert pos (.par slots1) st.tasks
              .ok ⟨if cSave then tasks1 else st.tasks, dirs1⟩

/-- move_task. `cFlat` answers the source-flatten prompt, `cConv` the
destination conversion prompt, `cSave` the save_yaml overwrite prompt.
The mid-operation revalidation re-reads the on-disk document (the
unsaved original) against the already-mutated directory listing, exactly
as the source does. -/
def moveTask (cFlat cConv cSave : Bool) (fromStr toStr : List Char) (st : PState) :
    Except Err PState :=
  match buildTaskGroups st with
  | .error e => .error e
  | .ok _ =>
    match parsePosition fromStr with
    | .error e => .error e
    | .ok (fds, fletter) =>
      let fn := strToNat fds
      let src : Except Err (List Char × List Char × List (Nat × GroupVal) × List (List Char)) :=
        match alLookup fn st.tasks with
        | none => .error .sourceNotFound
        | some (.par slots) =>
          match fletter with
          | none => .error .sourceTaskNotFound
          | some l =>
            match alLookup l slots with
            | none => .error .sourceTaskNotFound
            | some tname =>
              let slots1 := alErase l slots
              let srcFolder := natToStr fn ++ l ++ '_' :: tname
              match slots1 with
              | (rl, rn) :: [] =>
                let oldF := natToStr fn ++ rl ++ '_' :: rn
                let newF := natToStr fn ++ '_' :: rn
                let dirs1 :=
                  if oldF ∈ st.dirs then (if cFlat then renameIn st.dirs oldF newF else st.dirs)
                  else st.dirs
                .ok (tname, srcFolder,
                  alInsert fn (.serial rn) (alInsert fn (.par slots1) st.tasks), dirs1)
              | _ => .ok (tname, srcFolder, alInsert fn (.par slots1) st.tasks, st.dirs)
        | some (.serial s) =>
          match fletter with
          | some _ => .error .noLetterForSerial
          | none =>
            let srcFolder := natToStr fn ++ '_' :: s
            let st1 := shiftTaskGroups (fn + 1) ⟨alErase fn st.tasks, st.dirs⟩
            .ok (s, srcFolder, st1.tasks, st1.dirs)
      match src with
      | .error e => .error e
      | .ok (tname, srcFolder, tasks1, dirs1) =>
        match parsePosition toStr with
        | .error e => .error e
        | .ok (tds, tletter) =>
          let tn := strToNat tds
          match buildTaskGroups ⟨st.tasks, dirs1⟩ with
          | .error e => .error e
          | .ok gs2 =>
            if tn > gs2.length + 1 then .error .destOutOfRange
            else
              let dest : Except Err (List Char × List (Nat × GroupVal) × List (List Char)) :=
                match tletter with
                | none =>
                  match alLookup tn tasks1 with
                  | none => .ok (natToStr tn, alInsert tn (.serial tname) tasks1, dirs1)
                  | some _ =>
                    let st2 := shiftTaskGroups tn ⟨tasks1, dirs1⟩
                    .ok (natToStr tn, alInsert tn (.serial tname) st2.tasks, st2.dirs)
                | some l =>
                  match alLookup tn tasks1 with
                  | none => .ok (natToStr tn ++ l, alInsert tn (.par [(l, tname)]) tasks1, dirs1)
                  | some (.par slots) =>
                    if (alLookup l slots).isSome then .error .destExists
                    else
                      .ok (natToStr tn ++ l,
                        alInsert tn (.par (alInsert l tname slots)) tasks1, dirs1)
                  | some (.serial ex) =>
                    let oldF := natToStr tn ++ '_' :: ex
                    let newF := natToStr tn ++ 'a' :: '_' :: ex
                    let newVal : GroupVal := .par (alInsert l tname [(['a'], ex)])
                    if oldF ∈ dirs1 then
                      if cConv then
                        .ok (natToStr tn ++ l, alInsert tn newVal tasks1, renameIn dirs1 oldF newF)
                      else .error .conversionDeclined
                    else .ok (natToStr tn ++ l, alInsert tn newVal tasks1, dirs1)
              match dest with
              | .error e => .error e
              | .ok (pfx, tasks2, dirs2) =>
                let newFolder := pfx ++ '_' :: tname
                let dirs3 :=
                  if srcFolder ∈ dirs2 then renameIn dirs2 srcFolder newFolder else dirs2
                .ok ⟨if cSave then tasks2 else st.tasks, dirs3⟩

/-! ### Character and decimal-string lemmas -/

theorem digitCh_toNat {d : Nat} (h : d < 10) : (Char.ofNat (48 + d)).toNat = 48 + d := by
  interval_cases d <;> decide

theorem isDigitCh_digitCh {d : Nat} (h : d < 10) : isDigitCh (Char.ofNat (48 + d)) = true := by
  interval_cases d <;> decide

theorem digitVal_digitCh {d : Nat} (h : d < 10) : digitVal (Char.ofNat (48 + d)) = d := by
  interval_cases d <;> decide

theorem not_digit_of_lower {c : Char} (h : isLowerCh c = true) : isDigitCh c = false := by
  cases hd : isDigitCh c with
  | false => rfl
  | true =>
    exfalso
    simp only [isLowerCh, Bool.and_eq_true, decide_eq_true_eq] at h
    simp only [isDigitCh, Bool.and_eq_true, decide_eq_true_eq] at hd
    omega

theorem natToStrCore_acc (fuel : Nat) :
    ∀ n acc, natToStrCore fuel n acc = natToStrCore fuel n [] ++ acc := by
  induction fuel with
  | zero => intro n acc; rfl
  | succ f ih =>
    intro n acc
    simp only [natToStrCore]
    by_cases h : n / 10 = 0
    · simp [h]
    · rw [if_neg h, if_neg h, ih (n / 10) (Char.ofNat (48 + n % 10) :: acc),
        ih (n / 10) [Char.ofNat (48 + n % 10)], List.append_assoc]
      rfl

theorem natToStrCore_fuel :
    ∀ f g n, n < f → n < g → natToStrCore f n [] = natToStrCore g n [] := by
  intro f
  induction f with
  | zero => intro g n hf; omega
  | succ a ih =>
    intro g n hf hg
    cases g with
    | zero => omega
    | succ b =>
      simp only [natToStrCore]
      by_cases h : n / 10 = 0
      · simp [h]
      · rw [if_neg h, if_neg h, natToStrCore_acc a, natToStrCore_acc b]
        have hlt : n / 10 < n := Nat.div_lt_self (by omega) (by omega)
        rw [ih b (n / 10) (by omega) (by omega)]

theorem natToStr_digits (n : Nat) : ∀ c ∈ natToStr n, isDigitCh c = true := by
  have main : ∀ fuel m acc, (∀ c ∈ acc, isDigitCh c = true) →
      ∀ c ∈ natToStrCore fuel m acc, isDigitCh c = true := by
    intro fuel
    induction fuel with
    | zero => intro m acc h; exact h
    | succ f ih =>
      intro m acc h c hc
      simp only [natToStrCore] at hc
      by_cases hd : m / 10 = 0
      · rw [if_pos hd] at hc
        rcases List.mem_cons.mp hc with h1 | h1
        · subst h1; exact isDigitCh_digitCh (Nat.mod_lt _ (by omega))
        · exact h c h1
      · rw [if_neg hd] at hc
        refine ih (m / 10) _ ?_ c hc
        intro c2 hc2
        rcases List.mem_cons.mp hc2 with h1 | h1
        · subst h1; exact isDigitCh_digitCh (Nat.mod_lt _ (by omega))
        · exact h c2 h1
  exact main (n + 1) n [] (by intro c hc; cases hc)

theorem natToStr_ne_nil (n : Nat) : natToStr n ≠ [] := by
  unfold natToStr
  simp only [natToStrCore]
  by_cases h : n / 10 = 0
  · simp [h]
  · rw [if_neg h, natToStrCore_acc]
    simp

theorem strToNatAcc_nil (a : Nat) : strToNatAcc a [] = a := rfl

theorem strToNatAcc_cons (a : Nat) (c : Char) (cs : List Char) :
    strToNatAcc a (c :: cs) = strToNatAcc (10 * a + digitVal c) cs := rfl

theorem strToNatAcc_snoc (s : List Char) :
    ∀ a c, strToNatAcc a (s ++ [c]) = 10 * strToNatAcc a s + digitVal c := by
  induction s with
  | nil => intro a c; rfl
  | cons x xs ih => intro a c; exact ih (10 * a + digitVal x) c

theorem strToNat_natToStr (n : Nat) : strToNat (natToStr n) = n := by
  induction n using Nat.strong_induction_on with
  | _ n ih =>
    unfold natToStr
    simp only [natToStrCore]
    by_cases h : n / 10 = 0
    · rw [if_pos h]
      unfold strToNat
      rw [strToNatAcc_cons, strToNatAcc_nil, digitVal_digitCh (Nat.mod_lt _ (by omega))]
      omega
    · rw [if_neg h, natToStrCore_acc,
        natToStrCore_fuel n (n / 10 + 1) (n / 10)
          (by have : n / 10 < n := Nat.div_lt_self (by omega) (by omega); omega)
          (Nat.lt_succ_self _)]
      have hdef : natToStrCore (n / 10 + 1) (n / 10) [] = natToStr (n / 10) := rfl
      rw [hdef]
      unfold strToNat
      rw [strToNatAcc_snoc, digitVal_digitCh (Nat.mod_lt _ (by omega))]
      have hrec : strToNatAcc 0 (natToStr (n / 10)) = n / 10 :=
        ih (n / 10) (Nat.div_lt_self (by omega) (by omega))
      rw [hrec]
      omega

theorem parsePosition_split (ds ls : List Char)
    (hds : ∀ c ∈ ds, isDigitCh c = true) (hne : ds ≠ [])
    (hls : ∀ c ∈ ls, isDigitCh c = false) :
    parsePosition (ds ++ ls) = .ok (ds, if ls.isEmpty then none else some ls) := by
  unfold parsePosition
  have h1 : (ds ++ ls).filter isDigitCh = ds := by
    rw [List.filter_append, List.filter_eq_self.mpr hds,
      List.filter_eq_nil_iff.mpr (by intro c hc; simp [hls c hc]), List.append_nil]
  have h2 : (ds ++ ls).filter (fun c => !(isDigitCh c)) = ls := by
    rw [List.filter_append,
      List.filter_eq_nil_iff.mpr (by intro c hc; simp [hds c hc]),
      List.filter_eq_self.mpr (by intro c hc; simp [hls c hc]), List.nil_append]
  rw [h1, h2, if_neg (by simpa [List.isEmpty_iff] using hne)]

theorem parsePosition_natToStr (k : Nat) :
    parsePosition (natToStr k) = .ok (natToStr k, none) := by
  have := parsePosition_split (natToStr k) [] (natToStr_digits k) (natToStr_ne_nil k)
    (by intro c hc; cases hc)
  simpa using this

theorem parsePosition_natToStr_letter (k : Nat) (L : Char) (hL : isLowerCh L = true) :
    parsePosition (natToStr k ++ [L]) = .ok (natToStr k, some [L]) := by
  have := parsePosition_split (natToStr k) [L] (natToStr_digits k) (natToStr_ne_nil k)
    (by intro c hc; rcases List.mem_singleton.mp hc with h; subst h; exact not_digit_of_lower hL)
  simpa using this

/-! ### Association-list lemmas -/

theorem alKeys_cons {κ α : Type} (p : κ × α) (l : List (κ × α)) :
    alKeys (p :: l) = p.1 :: alKeys l := rfl

theorem alLookup_alInsert_self {κ α : Type} [DecidableEq κ] (k : κ) (v : α)
    (m : List (κ × α)) : alLookup k (alInsert k v m) = some v := by
  induction m with
  | nil => simp [alInsert, alLookup]
  | cons p rest ih =>
    obtain ⟨k2, v2⟩ := p
    by_cases h : k2 = k
    · subst h; simp [alInsert, alLookup]
    · simp [alInsert, alLookup, h, ih]

theorem alLookup_alInsert_ne {κ α : Type} [DecidableEq κ] {j k : κ} (h : j ≠ k) (v : α)
    (m : List (κ × α)) : alLookup j (alInsert k v m) = alLookup j m := by
  induction m with
  | nil => simp [alInsert, alLookup, Ne.symm h]
  | cons p rest ih =>
    obtain ⟨k2, v2⟩ := p
    by_cases hk : k2 = k
    · subst hk
      simp [alInsert, alLookup, Ne.symm h]
    · by_cases hj : k2 = j <;> simp [alInsert, alLookup, hk, hj, ih, h]

theorem alLookup_mem {κ α : Type} [DecidableEq κ] {k : κ} {v : α} :
    ∀ {m : List (κ × α)}, alLookup k m = some v → (k, v) ∈ m := by
  intro m
  induction m with
  | nil => intro h; cases h
  | cons p rest ih =>
    obtain ⟨k2, v2⟩ := p
    intro h
    by_cases hk : k2 = k
    · subst hk
      simp only [alLookup, if_pos rfl] at h
      injection h with h2
      subst h2
      exact List.mem_cons_self _ _
    · simp only [alLookup, if_neg hk] at h
      exact List.mem_cons_of_mem _ (ih h)

theorem alLookup_of_mem_keys {κ α : Type} [DecidableEq κ] {k : κ} {m : List (κ × α)}
    (h : k ∈ alKeys m) : ∃ v, alLookup k m = some v := by
  induction m with
  | nil => cases h
  | cons p rest ih =>
    obtain ⟨k2, v2⟩ := p
    by_cases hk : k2 = k
    · subst hk; exact ⟨v2, by simp [alLookup]⟩
    · have h2 : k ∈ alKeys rest := by
        rcases List.mem_cons.mp h with h3 | h3
        · exact absurd h3.symm hk
        · exact h3
      obtain ⟨v, hv⟩ := ih h2
      exact ⟨v, by simp [alLookup, hk, hv]⟩

theorem mem_alInsert {κ α : Type} [DecidableEq κ] {p : κ × α} {k : κ} {v : α} :
    ∀ {m : List (κ × α)}, p ∈ alInsert k v m → p = (k, v) ∨ p ∈ m := by
  intro m
  induction m with
  | nil => intro h; simp [alInsert] at h; exact Or.inl h
  | cons q rest ih =>
    obtain ⟨k2, v2⟩ := q
    intro h
    by_cases hk : k2 = k
    · subst hk
      simp only [alInsert, if_pos rfl] at h
      rcases List.mem_cons.mp h with h2 | h2
      · exact Or.inl h2
      · exact Or.inr (List.mem_cons_of_mem _ h2)
    · simp only [alInsert, if_neg hk] at h
      rcases List.mem_cons.mp h with h2 | h2
      · exact Or.inr (h2 ▸ List.mem_cons_self _ _)
      · rcases ih h2 with h3 | h3
        · exact Or.inl h3
        · exact Or.inr (List.mem_cons_of_mem _ h3)

theorem alKeys_alInsert {κ α : Type} [DecidableEq κ] (k : κ) (v : α) (m : List (κ × α)) :
    alKeys (alInsert k v m) =
      if k ∈ alKeys m then alKeys m else alKeys m ++ [k] := by
  induction m with
  | nil => simp [alInsert, alKeys]
  | cons p rest ih =>
    obtain ⟨k2, v2⟩ := p
    by_cases hk : k2 = k
    · subst hk
      simp [alInsert, alKeys]
    · simp only [alInsert, if_neg hk, alKeys_cons, ih]
      by_cases hm : k ∈ alKeys rest
      · rw [if_pos hm, if_pos (List.mem_cons_of_mem _ hm)]
      · rw [if_neg hm,
          if_neg (by
            intro hmem
            rcases List.mem_cons.mp hmem with h3 | h3
            · exact hk h3.symm
            · exact hm h3)]
        rfl

theorem nodup_alKeys_alInsert {κ α : Type} [DecidableEq κ] {k : κ} {v : α}
    {m : List (κ × α)} (h : (alKeys m).Nodup) : (alKeys (alInsert k v m)).Nodup := by
  rw [alKeys_alInsert]
  by_cases hm : k ∈ alKeys m
  · rw [if_pos hm]; exact h
  · rw [if_neg hm]
    refine List.Nodup.append h (List.nodup_singleton k) ?_
    intro a ha hb
    have ha2 : a = k := List.mem_singleton.mp hb
    subst ha2
    exact hm ha

/-! ### Insertion-sort lemmas -/

theorem mem_insertBy {α : Type} (le : α → α → Bool) (x z : α) :
    ∀ (l : List α), z ∈ insertBy le x l ↔ z = x ∨ z ∈ l := by
  intro l
  induction l with
  | nil => simp [insertBy]
  | cons y ys ih =>
    simp only [insertBy]
    by_cases hle : le x y = true
    · rw [if_pos hle]
      simp [List.mem_cons]
    · rw [if_neg hle]
      simp [List.mem_cons, ih]
      tauto

theorem insertBy_perm {α : Type} (le : α → α → Bool) (x : α) :
    ∀ (l : List α), List.Perm (insertBy le x l) (x :: l) := by
  intro l
  induction l with
  | nil => simp [insertBy]
  | cons y ys ih =>
    simp only [insertBy]
    by_cases hle : le x y = true
    · rw [if_pos hle]
    · rw [if_neg hle]
      exact (ih.cons y).trans (List.Perm.swap x y ys)

theorem sortBy_perm {α : Type} (le : α → α → Bool) :
    ∀ (l : List α), List.Perm (sortBy le l) l := by
  intro l
  induction l with
  | nil => exact List.Perm.refl _
  | cons x xs ih =>
    simp only [sortBy]
    exact (insertBy_perm le x (sortBy le xs)).trans (ih.cons x)

theorem mem_sortBy {α : Type} {le : α → α → Bool} {z : α} {l : List α} :
    z ∈ sortBy le l ↔ z ∈ l := (sortBy_perm le l).mem_iff

theorem pairwise_insertBy {α : Type} {le : α → α → Bool} {R : α → α → Prop}
    (h1 : ∀ a b, le a b = true → R a b)
    (h2 : ∀ a b, le a b = false → R b a)
    (h3 : ∀ a b c, R a b → R b c → R a c) (x : α) :
    ∀ {l : List α}, List.Pairwise R l → List.Pairwise R (insertBy le x l) := by
  intro l
  induction l with
  | nil => intro _; exact List.pairwise_singleton R x
  | cons y ys ih =>
    intro hp
    rcases List.pairwise_cons.mp hp with ⟨hy, hys⟩
    simp only [insertBy]
    by_cases hle : le x y = true
    · rw [if_pos hle]
      refine List.pairwise_cons.mpr ⟨?_, hp⟩
      intro z hz
      rcases List.mem_cons.mp hz with rfl | hz2
      · exact h1 _ _ hle
      · exact h3 _ _ _ (h1 _ _ hle) (hy z hz2)
    · rw [if_neg hle]
      refine List.pairwise_cons.mpr ⟨?_, ih hys⟩
      intro z hz
      rcases (mem_insertBy le x z ys).mp hz with rfl | hz2
      · exact h2 _ _ (Bool.eq_false_iff.mpr hle)
      · exact hy z hz2

theorem pairwise_sortBy {α : Type} {le : α → α → Bool} {R : α → α → Prop}
    (h1 : ∀ a b, le a b = true → R a b)
    (h2 : ∀ a b, le a b = false → R b a)
    (h3 : ∀ a b c, R a b → R b c → R a c) :
    ∀ (l : List α), List.Pairwise R (sortBy le l) := by
  intro l
  induction l with
  | nil => exact List.Pairwise.nil
  | cons x xs ih =>
    simp only [sortBy]
    exact pairwise_insertBy h1 h2 h3 x ih

/-! ### Lexicographic comparison lemmas -/

theorem strLtB_asymm : ∀ {a b : List Char}, strLtB a b = true → strLtB b a = false := by
  intro a
  induction a with
  | nil =>
    intro b h
    cases b with
    | nil => exact absurd h (by simp [strLtB])
    | cons c cs => rfl
  | cons x xs ih =>
    intro b h
    cases b with
    | nil => exact absurd h (by simp [strLtB])
    | cons y ys =>
      simp only [strLtB] at h ⊢
      by_cases h1 : x.toNat < y.toNat
      · rw [if_neg (by omega : ¬ y.toNat < x.toNat), if_pos h1]
      · by_cases h2 : y.toNat < x.toNat
        · rw [if_neg h1, if_pos h2] at h
          exact Bool.noConfusion h
        · rw [if_neg h1, if_neg h2] at h
          rw [if_neg h2, if_neg h1]
          exact ih h

theorem strLtB_split : ∀ (a b c : List Char), strLtB a c = true →
    strLtB a b = true ∨ strLtB b c = true := by
  intro a
  induction a with
  | nil =>
    intro b c h
    cases c with
    | nil => exact absurd h (by simp [strLtB])
    | cons z zs =>
      cases b with
      | nil => exact Or.inr (by simp [strLtB])
      | cons y ys => exact Or.inl (by simp [strLtB])
  | cons x xs ih =>
    intro b c h
    cases c with
    | nil => exact absurd h (by simp [strLtB])
    | cons z zs =>
      cases b with
      | nil => exact Or.inr (by simp [strLtB])
      | cons y ys =>
        simp only [strLtB] at h ⊢
        by_cases hxz : x.toNat < z.toNat
        · by_cases hxy : x.toNat < y.toNat
          · left; rw [if_pos hxy]
          · right; rw [if_pos (by omega : y.toNat < z.toNat)]
        · by_cases hzx : z.toNat < x.toNat
          · rw [if_neg hxz, if_pos hzx] at h
            exact Bool.noConfusion h
          · rw [if_neg hxz, if_neg hzx] at h
            by_cases hxy : x.toNat < y.toNat
            · left; rw [if_pos hxy]
            · by_cases hyx : y.toNat < x.toNat
              · right; rw [if_pos (by omega : y.toNat < z.toNat)]
              · rcases ih ys zs h with h2 | h2
                · left; rw [if_neg hxy, if_neg hyx]; exact h2
                · right
                  rw [if_neg (by omega : ¬ y.toNat < z.toNat),
                    if_neg (by omega : ¬ z.toNat < y.toNat)]
                  exact h2

theorem strGe_trans {a b c : List Char} (h1 : strLtB a b = false) (h2 : strLtB b c = false) :
    strLtB a c = false := by
  cases hac : strLtB a c with
  | false => rfl
  | true =>
    rcases strLtB_split a b c hac with h | h
    · rw [h1] at h; exact Bool.noConfusion h
    · rw [h2] at h; exact Bool.noConfusion h

/-! ### Reconciler lemmas -/

theorem groupOfVal_pos (k : Nat) (v : GroupVal) : (groupOfVal k v).pos = k := by
  cases v <;> rfl

theorem buildGroupsMap_entries (tasks : List (Nat × GroupVal)) :
    ∀ p ∈ buildGroupsMap tasks, (p.2).pos = p.1 := by
  have aux : ∀ (ts : List (Nat × GroupVal)) (acc : List (Nat × MGroup)),
      (∀ p ∈ acc, (p.2).pos = p.1) →
      ∀ p ∈ ts.foldl (fun m kv => alInsert kv.1 (groupOfVal kv.1 kv.2) m) acc,
        (p.2).pos = p.1 := by
    intro ts
    induction ts with
    | nil => intro acc h; exact h
    | cons kv rest ih =>
      intro acc h p hp
      refine ih _ ?_ p hp
      intro q hq
      rcases mem_alInsert hq with h2 | h2
      · subst h2; exact groupOfVal_pos _ _
      · exact h q h2
  exact aux tasks [] (by intro p hp; cases hp)

theorem buildGroupsMap_nodup (tasks : List (Nat × GroupVal)) :
    (alKeys (buildGroupsMap tasks)).Nodup := by
  have aux : ∀ (ts : List (Nat × GroupVal)) (acc : List (Nat × MGroup)),
      (alKeys acc).Nodup →
      (alKeys (ts.foldl (fun m kv => alInsert kv.1 (groupOfVal kv.1 kv.2) m) acc)).Nodup := by
    intro ts
    induction ts with
    | nil => intro acc h; exact h
    | cons kv rest ih =>
      intro acc h
      exact ih _ (nodup_alKeys_alInsert h)
  exact aux tasks [] List.nodup_nil

theorem resolveTasks_ok_mem {found : List (List Char × List Char)} :
    ∀ {ts ts2 : List MTask}, resolveTasks found ts = .ok ts2 →
      ∀ t ∈ ts2, alLookup (fullPos t) found = some t.folder := by
  intro ts
  induction ts with
  | nil =>
    intro ts2 h
    simp only [resolveTasks] at h
    injection h with h2
    subst h2
    intro t ht
    cases ht
  | cons t ts ih =>
    intro ts2 h
    simp only [resolveTasks] at h
    cases hl : alLookup (fullPos t) found with
    | none => rw [hl] at h; cases h
    | some f =>
      rw [hl] at h
      cases hr : resolveTasks found ts with
      | error e => rw [hr] at h; cases h
      | ok ts3 =>
        rw [hr] at h
        injection h with h2
        subst h2
        intro t2 ht2
        rcases List.mem_cons.mp ht2 with rfl | h3
        · simpa [fullPos] using hl
        · exact ih hr t2 h3

theorem resolveGroups_ok_keys {found : List (List Char × List Char)} :
    ∀ {l l2 : List (Nat × MGroup)}, resolveGroups found l = .ok l2 →
      alKeys l2 = alKeys l := by
  intro l
  induction l with
  | nil =>
    intro l2 h
    simp only [resolveGroups] at h
    injection h with h2
    subst h2
    rfl
  | cons p rest ih =>
    intro l2 h
    obtain ⟨k, g⟩ := p
    simp only [resolveGroups] at h
    cases hts : resolveTasks found g.tasks with
    | error e => rw [hts] at h; cases h
    | ok ts2 =>
      rw [hts] at h
      cases hrg : resolveGroups found rest with
      | error e => rw [hrg] at h; cases h
      | ok rest2 =>
        rw [hrg] at h
        injection h with h2
        subst h2
        rw [alKeys_cons, alKeys_cons, ih hrg]

theorem resolveGroups_ok_entries {found : List (List Char × List Char)} :
    ∀ {l l2 : List (Nat × MGroup)}, resolveGroups found l = .ok l2 →
      (∀ p ∈ l, (p.2).pos = p.1) →
      ∀ p ∈ l2, (p.2).pos = p.1 ∧
        ∀ t ∈ (p.2).tasks, alLookup (fullPos t) found = some t.folder := by
  intro l
  induction l with
  | nil =>
    intro l2 h _
    simp only [resolveGroups] at h
    injection h with h2
    subst h2
    intro p hp
    cases hp
  | cons q rest ih =>
    intro l2 h hpos
    obtain ⟨k, g⟩ := q
    simp only [resolveGroups] at h
    cases hts : resolveTasks found g.tasks with
    | error e => rw [hts] at h; cases h
    | ok ts2 =>
      rw [hts] at h
      cases hrg : resolveGroups found rest with
      | error e => rw [hrg] at h; cases h
      | ok rest2 =>
        rw [hrg] at h
        injection h with h2
        subst h2
        intro p hp
        rcases List.mem_cons.mp hp with rfl | h3
        · refine ⟨?_, ?_⟩
          · have := hpos (k, g) (List.mem_cons_self _ _)
            simpa using this
          · intro t ht
            exact resolveTasks_ok_mem hts t ht
        · exact ih hrg (fun p2 hp2 => hpos p2 (List.mem_cons_of_mem _ hp2)) p h3

theorem scanStep_some {d : List Char} {x : List Char × List Char × List Char}
    (h : matchFolder d = some x) (m : List (List Char × List Char)) :
    scanStep m d = alInsert (x.1 ++ x.2.1) d m := by
  simp [scanStep, h]

theorem scanStep_none {d : List Char} (h : matchFolder d = none)
    (m : List (List Char × List Char)) : scanStep m d = m := by
  simp [scanStep, h]

theorem scanFolders_lookup {dirs : List (List Char)} {k f : List Char}
    (h : alLookup k (scanFolders dirs) = some f) :
    f ∈ dirs ∧ posKeyOf f = some k := by
  have aux : ∀ (ds : List (List Char)) (acc : List (List Char × List Char))
      (L : List (List Char)), (∀ d ∈ ds, d ∈ L) →
      (∀ k2 f2, alLookup k2 acc = some f2 → f2 ∈ L ∧ posKeyOf f2 = some k2) →
      ∀ k2 f2, alLookup k2 (ds.foldl scanStep acc) = some f2 →
        f2 ∈ L ∧ posKeyOf f2 = some k2 := by
    intro ds
    induction ds with
    | nil => intro acc L hsub hacc; exact hacc
    | cons d rest ih =>
      intro acc L hsub hacc k2 f2 h2
      rw [List.foldl_cons] at h2
      refine ih (scanStep acc d) L (fun d2 hd2 => hsub d2 (List.mem_cons_of_mem _ hd2))
        ?_ k2 f2 h2
      intro k3 f3 h3
      cases hm : matchFolder d with
      | none =>
        rw [scanStep_none hm] at h3
        exact hacc k3 f3 h3
      | some x =>
        rw [scanStep_some hm] at h3
        by_cases hk : k3 = x.1 ++ x.2.1
        · subst hk
          rw [alLookup_alInsert_self] at h3
          injection h3 with h4
          subst h4
          exact ⟨hsub d (List.mem_cons_self _ _), by simp [posKeyOf, hm]⟩
        · rw [alLookup_alInsert_ne hk] at h3
          exact hacc k3 f3 h3
  exact aux dirs [] dirs (fun d hd => hd)
    (fun k2 f2 h2 => absurd h2 (by simp [alLookup])) k f h

theorem map_pos_filterMap_lookup :
    ∀ (ps : List Nat) (m : List (Nat × MGroup)),
      (∀ p ∈ ps, ∀ g, alLookup p m = some g → g.pos = p) →
      (∀ p ∈ ps, (alLookup p m).isSome = true) →
      (ps.filterMap (fun p => alLookup p m)).map MGroup.pos = ps := by
  intro ps
  induction ps with
  | nil => intro m _ _; rfl
  | cons p ps ih =>
    intro m hpos hsome
    have h1 : (alLookup p m).isSome = true := hsome p (List.mem_cons_self _ _)
    cases hg : alLookup p m with
    | none => rw [hg] at h1; cases h1
    | some g =>
      rw [List.filterMap_cons, hg, List.map_cons,
        hpos p (List.mem_cons_self _ _) g hg,
        ih m (fun p2 hp2 => hpos p2 (List.mem_cons_of_mem _ hp2))
          (fun p2 hp2 => hsome p2 (List.mem_cons_of_mem _ hp2))]

/-! ### Claim C2 -/

/-- A state whose single group sits at order 2: the config references
order 2 only and the matching folder exists. -/
def c2cState : PState := ⟨[(2, GroupVal.serial ['x'])], [['2', '_', 'x']]⟩

/-- The groups build_task_groups returns for that state. -/
def c2cGroups : List MGroup := [⟨2, [⟨2, none, ['x'], ['2', '_', 'x']⟩]⟩]

/-- C2 counterexample: build_task_groups succeeds on a project whose single
group has order 2, so the returned orders are [2], not the contiguous
range 1..N = [1]; the function never checks contiguity. -/
theorem c2_counterexample :
    buildTaskGroups c2cState = Except.ok c2cGroups ∧
    c2cGroups.map MGroup.pos = [2] ∧ [2] ≠ List.range' 1 c2cGroups.length :=
  ⟨rfl, rfl, by decide⟩

/-- C2 (amended): whenever build_task_groups succeeds, the returned groups
are strictly sorted by order (hence no duplicates) and every task has a
backing folder on disk whose name matches the task's full position; the
orders need not form the contiguous range 1..N, which is not checked. -/
theorem c2_amended (st : PState) (gs : List MGroup)
    (h : buildTaskGroups st = Except.ok gs) :
    List.Pairwise (fun a b => a < b) (gs.map MGroup.pos) ∧
    ∀ g ∈ gs, ∀ t ∈ g.tasks, t.folder ∈ st.dirs ∧ posKeyOf t.folder = some (fullPos t) := by
  unfold buildTaskGroups at h
  cases hres : resolveGroups (scanFolders st.dirs) (buildGroupsMap st.tasks) with
  | error e => rw [hres] at h; cases h
  | ok gmap2 =>
    rw [hres] at h
    injection h with h
    subst h
    have hent := resolveGroups_ok_entries hres (buildGroupsMap_entries st.tasks)
    have hkeys : alKeys gmap2 = alKeys (buildGroupsMap st.tasks) := resolveGroups_ok_keys hres
    have hnd : (alKeys gmap2).Nodup := by rw [hkeys]; exact buildGroupsMap_nodup st.tasks
    have hmem : ∀ p ∈ sortBy natLeB (alKeys gmap2), p ∈ alKeys gmap2 :=
      fun p hp => mem_sortBy.mp hp
    have hsome : ∀ p ∈ sortBy natLeB (alKeys gmap2), (alLookup p gmap2).isSome = true := by
      intro p hp
      obtain ⟨v, hv⟩ := alLookup_of_mem_keys (hmem p hp)
      simp [hv]
    have hposl : ∀ p ∈ sortBy natLeB (alKeys gmap2), ∀ g, alLookup p gmap2 = some g →
        g.pos = p := by
      intro p hp g hg
      exact (hent (p, g) (alLookup_mem hg)).1
    constructor
    · rw [map_pos_filterMap_lookup _ gmap2 hposl hsome]
      have hle : List.Pairwise (fun a b : Nat => a ≤ b) (sortBy natLeB (alKeys gmap2)) :=
        @pairwise_sortBy Nat natLeB (fun a b : Nat => a ≤ b)
          (by intro a b hab; simp only [natLeB, decide_eq_true_eq] at hab; exact hab)
          (by intro a b hab; simp only [natLeB, decide_eq_false_iff_not] at hab; omega)
          (fun a b c h1 h2 => Nat.le_trans h1 h2) _
      have hndps : (sortBy natLeB (alKeys gmap2)).Nodup :=
        ((sortBy_perm natLeB (alKeys gmap2)).nodup_iff).mpr hnd
      exact List.Pairwise.imp (fun hab => lt_of_le_of_ne hab.1 hab.2) (hle.and hndps)
    · intro g hg t ht
      rcases List.mem_filterMap.mp hg with ⟨p, _, hlg⟩
      exact scanFolders_lookup ((hent (p, g) (alLookup_mem hlg)).2 t ht)

/-- The valid one-group state used to witness C2's amended theorem. -/
def c2wState : PState := ⟨[(1, GroupVal.serial ['a'])], [['1', '_', 'a']]⟩

/-- The groups build_task_groups returns for the witness state. -/
def c2wGroups : List MGroup := [⟨1, [⟨1, none, ['a'], ['1', '_', 'a']⟩]⟩]

/-- Witness for the amended C2 theorem at a concrete valid project. -/
theorem c2_amended_witness :
    List.Pairwise (fun a b => a < b) (c2wGroups.map MGroup.pos) ∧
    ∀ g ∈ c2wGroups, ∀ t ∈ g.tasks,
      t.folder ∈ c2wState.dirs ∧ posKeyOf t.folder = some (fullPos t) :=
  c2_amended c2wState c2wGroups (by rfl)

/-! ### Claim C1 -/

/-- A valid two-group project used to evaluate Delete. -/
def c1State : PState :=
  ⟨[(1, GroupVal.serial ['a']), (2, GroupVal.serial ['b'])],
   [['1', '_', 'a'], ['2', '_', 'b']]⟩

/-- A valid two-group project used to evaluate Insert followed by Delete
at the same position. -/
def c1AddState : PState :=
  ⟨[(1, GroupVal.serial ['p']), (2, GroupVal.serial ['t'])],
   [['1', '_', 'p'], ['2', '_', 't']]⟩

/-- The state produced by inserting "e" at position 2 into c1AddState. -/
def c1AfterAdd : PState :=
  ⟨[(1, GroupVal.serial ['p']), (3, GroupVal.serial ['t']), (2, GroupVal.serial ['e'])],
   [['1', '_', 'p'], ['3', '_', 't'], ['2', '_', 'e']]⟩

/-- C1: evaluation of the code at the failing inputs.  Deleting the serial
group at order 1 of {1: a, 2: b} shifts the later group UP by one (the
only delta shift_task_groups implements), producing {3: b} with folder
3_b, instead of closing the gap to {1: b}.  Consequently Insert at 2 then
Delete at 2 on {1: p, 2: t} ends at {1: p, 4: t}, not the original
positions. -/
theorem c1_delete_shifts_up :
    deleteTask true true true ['1'] c1State =
      Except.ok ⟨[(3, GroupVal.serial ['b'])], [['3', '_', 'b']]⟩ ∧
    addTask true ['2'] ['e'] c1AddState = Except.ok c1AfterAdd ∧
    deleteTask true true true ['2'] c1AfterAdd =
      Except.ok ⟨[(1, GroupVal.serial ['p']), (4, GroupVal.serial ['t'])],
        [['1', '_', 'p'], ['4', '_', 't']]⟩ ∧
    ([(1, GroupVal.serial ['p']), (4, GroupVal.serial ['t'])] : List (Nat × GroupVal)) ≠
      c1AddState.tasks :=
  ⟨rfl, rfl, rfl, by decide⟩

/-! ### Claim C6 -/

/-- The spec's well-formedness domain for position strings: a leading
digit, and everything after the leading digit run is a lowercase
letter. -/
def wfPositionSpec (s : List Char) : Bool :=
  (match s with
   | [] => false
   | c :: _ => isDigitCh c) &&
  (s.dropWhile isDigitCh).all isLowerCh

/-- C6 counterexample: "a1" has no leading digit, so the claim requires
MalformedPosition, but parse_position succeeds (it collects the digit
from anywhere in the string). -/
theorem c6_counterexample :
    parsePosition (("a1").toList) = Except.ok ((("1").toList), some (("a").toList)) ∧
    wfPositionSpec (("a1").toList) = false := ⟨rfl, rfl⟩

/-- C6 (amended): parse_position fails (always with MalformedPosition)
exactly when the input contains no digit character at all, anywhere; on
every other input it succeeds.  Leading position and lowercase-ness of
the other characters are irrelevant. -/
theorem c6_amended (s : List Char) :
    ((parsePosition s).isOk = s.any isDigitCh) ∧
    (parsePosition s = Except.error Err.malformedPosition ∨ (parsePosition s).isOk = true) := by
  unfold parsePosition
  by_cases h : (s.filter isDigitCh).isEmpty = true
  · rw [if_pos h]
    have h2 : s.filter isDigitCh = [] := List.isEmpty_iff.mp h
    have h3 : s.any isDigitCh = false := by
      cases hany : s.any isDigitCh with
      | false => rfl
      | true =>
        rcases List.any_eq_true.mp hany with ⟨a, ha, hpa⟩
        have h4 := List.filter_eq_nil_iff.mp h2 a ha
        rw [hpa] at h4
        exact absurd rfl h4
    rw [h3]
    exact ⟨rfl, Or.inl rfl⟩
  · rw [if_neg h]
    have h2 : s.filter isDigitCh ≠ [] := by
      intro hnil
      exact h (by rw [hnil]; rfl)
    have h3 : s.any isDigitCh = true := by
      obtain ⟨a, ha⟩ := List.exists_mem_of_ne_nil _ h2
      have hmem := List.mem_filter.mp ha
      exact List.any_eq_true.mpr ⟨a, hmem.1, hmem.2⟩
    rw [h3]
    exact ⟨rfl, Or.inr rfl⟩

/-! ### Claim C8 -/

/-- C8: parse_position collects every digit character of the input, in
order, into the numeric part, and every non-digit character, in order,
into the letter part, regardless of where they occur and of what kind
the non-digit characters are. -/
theorem c8_parse_scattered (s : List Char) (h : s.any isDigitCh = true) :
    parsePosition s = Except.ok (s.filter isDigitCh,
      if (s.filter (fun c => !(isDigitCh c))).isEmpty then none
      else some (s.filter (fun c => !(isDigitCh c)))) := by
  have h2 : ¬ ((s.filter isDigitCh).isEmpty = true) := by
    intro hemp
    have h3 : s.filter isDigitCh = [] := List.isEmpty_iff.mp hemp
    rcases List.any_eq_true.mp h with ⟨a, ha, hpa⟩
    have h4 : a ∈ s.filter isDigitCh := List.mem_filter.mpr ⟨ha, hpa⟩
    rw [h3] at h4
    cases h4
  unfold parsePosition
  rw [if_neg h2]

/-- Witness for C8: "1a2" parses with numeric part "12" (order 12) and
slot "a"; an uppercase letter and punctuation are accepted as slot
characters. -/
theorem c8_witness :
    parsePosition (("1a2").toList) = Except.ok ((("12").toList), some (("a").toList)) ∧
    strToNat (("12").toList) = 12 ∧
    parsePosition (("1A!").toList) = Except.ok ((("1").toList), some (("A!").toList)) :=
  ⟨c8_parse_scattered (("1a2").toList) (by decide), by decide, rfl⟩

/-! ### Claim C7 -/

/-- Task.full_position applied to a parsed position: the numeric part is
passed through int() (strToNat) and re-rendered in canonical decimal. -/
def fullPositionStr (p : Nat) (letterOpt : Option (List Char)) : List Char :=
  natToStr p ++ letterOpt.getD []

/-- format(parse(s)), when parse succeeds. -/
def formatParse (s : List Char) : Option (List Char) :=
  (parsePosition s).toOption.map (fun x => fullPositionStr (strToNat x.1) x.2)

/-- C7 counterexample: "01" is a well-formed position string (digits then
letters), but format(parse("01")) = "1" because the numeric part goes
through int() and is re-rendered without the leading zero. -/
theorem c7_counterexample :
    wfPositionSpec (("01").toList) = true ∧
    formatParse (("01").toList) = some (("1").toList) ∧
    some (("1").toList) ≠ some (("01").toList) := ⟨rfl, rfl, by decide⟩

/-- C7 (amended): the round-trip format(parse(s)) = s holds for every
well-formed position string whose numeric part is written canonically
(no leading zeros), i.e. every string natToStr n ++ ls with ls all
lowercase letters. -/
theorem c7_amended (n : Nat) (ls : List Char) (hl : ∀ c ∈ ls, isLowerCh c = true) :
    formatParse (natToStr n ++ ls) = some (natToStr n ++ ls) := by
  have hp := parsePosition_split (natToStr n) ls (natToStr_digits n) (natToStr_ne_nil n)
    (fun c hc => not_digit_of_lower (hl c hc))
  unfold formatParse
  rw [hp]
  cases hls : ls.isEmpty with
  | true =>
    have h2 : ls = [] := List.isEmpty_iff.mp hls
    subst h2
    simp [Except.toOption, fullPositionStr, strToNat_natToStr]
  | false =>
    simp [hls, Except.toOption, fullPositionStr, strToNat_natToStr]

/-- Witness for the amended C7 theorem: format(parse("3a")) = "3a". -/
theorem c7_amended_witness :
    formatParse (natToStr 3 ++ (("a").toList)) = some (natToStr 3 ++ (("a").toList)) :=
  c7_amended 3 (("a").toList) (by decide)

/-! ### Claim C10 -/

/-- C10: on a project whose group at order k is parallel, Delete with the
bare position k raises (the "No task found" error): the code never
deletes a whole parallel group in one operation, and since the error is
raised before any mutation or save, the configuration document and the
folders are unchanged (an error result carries no new state). -/
theorem c10_bare_delete_parallel (st : PState) (k : Nat)
    (slots : List (List Char × List Char)) (gs : List MGroup) (cDel cFlat cSave : Bool)
    (hb : buildTaskGroups st = Except.ok gs)
    (hk : alLookup k st.tasks = some (GroupVal.par slots)) :
    deleteTask cDel cFlat cSave (natToStr k) st = Except.error Err.noTaskAt := by
  unfold deleteTask
  simp only [hb, parsePosition_natToStr, strToNat_natToStr, hk]

/-- A valid project with one parallel group at order 1, for the C10
witness. -/
def c10State : PState :=
  ⟨[(1, GroupVal.par [(['a'], ['x']), (['b'], ['y'])])],
   [['1', 'a', '_', 'x'], ['1', 'b', '_', 'y']]⟩

/-- The groups build_task_groups returns for c10State. -/
def c10Groups : List MGroup :=
  [⟨1, [⟨1, some ['a'], ['x'], ['1', 'a', '_', 'x']⟩,
        ⟨1, some ['b'], ['y'], ['1', 'b', '_', 'y']⟩]⟩]

/-- Witness for C10 at a concrete parallel group. -/
theorem c10_witness :
    deleteTask true true true (natToStr 1) c10State = Except.error Err.noTaskAt :=
  c10_bare_delete_parallel c10State 1 [(['a'], ['x']), (['b'], ['y'])] c10Groups
    true true true (by rfl) (by rfl)

/-! ### Claim C9 -/

/-- C9: every on-disk directory whose name matches the folder pattern with
numeric part at least the start order is renamed by a +1 shift (it
appears, with its bumped name, in the issued rename sequence).  The
selection is computed from the directory listing alone: shiftRenames
takes no configuration argument, so directories with no config entry are
renamed too. -/
theorem c9_shift_renames_unmanaged (start : Nat) (dirs : List (List Char)) (d : List Char)
    (x : List Char × List Char × List Char)
    (hd : d ∈ dirs) (hm : matchFolder d = some x) (hge : start ≤ strToNat x.1) :
    (d, bumpName d) ∈ shiftRenames start dirs := by
  unfold shiftRenames
  refine List.mem_map.mpr ⟨d, ?_, rfl⟩
  rw [mem_sortBy]
  unfold shiftAffected
  refine List.mem_filter.mpr ⟨hd, ?_⟩
  rw [hm]
  simp [hge]

/-- Witness for C9: the unmanaged directory 7_zzz (no config entry
involved anywhere) is renamed to 8_zzz by a shift starting at 3. -/
theorem c9_witness :
    (((("7_zzz").toList), ((("8_zzz").toList)))) ∈ shiftRenames 3 [(("7_zzz").toList)] :=
  c9_shift_renames_unmanaged 3 [(("7_zzz").toList)] (("7_zzz").toList)
    ((("7").toList), (("").toList), (("zzz").toList)) (by decide) (by rfl) (by decide)

/-! ### Claim C5 -/

/-- A one-group serial project for the C5 counterexample. -/
def c5State : PState := ⟨[(1, GroupVal.serial ['x'])], [['1', '_', 'x']]⟩

/-- C5 counterexample: inserting a parallel task at "1b" over the serial
group {1: x} (conversion confirmed) produces the Python dict literal
with key "b" written twice, so the result has exactly ONE slot and the
existing task's name is lost, not the claimed two slots. -/
theorem c5_counterexample :
    addTask true (("1b").toList) (("y").toList) c5State =
      Except.ok ⟨[(1, GroupVal.par [(['b'], ['y'])])],
        [['1', 'b', '_', 'x'], ['1', 'b', '_', 'y']]⟩ ∧
    [(['b'], (("y").toList))].length ≠ 2 := ⟨rfl, by decide⟩

/-- C5 (amended): for every valid project with a serial group (name ex) at
an in-range order k and every lowercase slot letter L OTHER THAN b,
inserting a parallel task at kL with conversion confirmed succeeds and
yields a parallel group at k with exactly two slots, the existing task
on slot b and the new one on slot L, while the group at every other
order is unchanged.  (For L = b the second dict-literal entry overwrites
the first, leaving one slot, as the counterexample shows.) -/
theorem c5_amended (st : PState) (k : Nat) (ex nm : List Char) (L : Char) (gs : List MGroup)
    (hb : buildTaskGroups st = Except.ok gs)
    (hk : alLookup k st.tasks = some (GroupVal.serial ex))
    (hr : k ≤ gs.length + 1)
    (hL : isLowerCh L = true) (hLb : L ≠ 'b') :
    ∃ ds, addTask true (natToStr k ++ [L]) nm st =
        Except.ok ⟨alInsert k (GroupVal.par [(['b'], ex), ([L], nm)]) st.tasks, ds⟩ ∧
      alLookup k (alInsert k (GroupVal.par [(['b'], ex), ([L], nm)]) st.tasks) =
        some (GroupVal.par [(['b'], ex), ([L], nm)]) ∧
      ∀ j, j ≠ k → alLookup j (alInsert k (GroupVal.par [(['b'], ex), ([L], nm)]) st.tasks) =
        alLookup j st.tasks := by
  have hneq : ¬ ((['b'] : List Char) = [L]) := by
    intro h
    injection h with h1 _
    exact hLb h1.symm
  have hpair : alInsert [L] nm [(['b'], ex)] = [(['b'], ex), ([L], nm)] := by
    simp only [alInsert, if_neg hneq]
  unfold addTask
  simp only [hb, parsePosition_natToStr_letter k L hL, strToNat_natToStr]
  rw [if_neg (by omega)]
  simp only [hk, hpair]
  by_cases hf : (natToStr k ++ '_' :: ex) ∈ st.dirs
  · rw [if_pos hf, if_pos trivial]
    exact ⟨_, rfl, alLookup_alInsert_self _ _ _, fun j hj => alLookup_alInsert_ne hj _ _⟩
  · rw [if_neg hf]
    exact ⟨_, rfl, alLookup_alInsert_self _ _ _, fun j hj => alLookup_alInsert_ne hj _ _⟩

/-- The groups build_task_groups returns for c5State. -/
def c5Groups : List MGroup := [⟨1, [⟨1, none, ['x'], ['1', '_', 'x']⟩]⟩]

/-- Witness for the amended C5 theorem: inserting "y" at "1a" over the
serial group {1: x}. -/
theorem c5_amended_witness :
    ∃ ds, addTask true (natToStr 1 ++ ['a']) (("y").toList) c5State =
        Except.ok ⟨alInsert 1 (GroupVal.par [(['b'], ['x']), (['a'], (("y").toList))])
          c5State.tasks, ds⟩ ∧
      alLookup 1 (alInsert 1 (GroupVal.par [(['b'], ['x']), (['a'], (("y").toList))])
        c5State.tasks) = some (GroupVal.par [(['b'], ['x']), (['a'], (("y").toList))]) ∧
      ∀ j, j ≠ 1 → alLookup j (alInsert 1 (GroupVal.par [(['b'], ['x']),
        (['a'], (("y").toList))]) c5State.tasks) = alLookup j c5State.tasks :=
  c5_amended c5State 1 ['x'] (("y").toList) 'a' c5Groups (by rfl) (by rfl)
    (by omega) (by decide) (by decide)

/-! ### Claim C3 -/

/-- A two-group serial project for the C3 move evaluation and witness. -/
def c3MoveState : PState :=
  ⟨[(1, GroupVal.serial ['x']), (2, GroupVal.serial ['y'])],
   [['1', '_', 'x'], ['2', '_', 'y']]⟩

/-- A one-parallel-group project for the C3 counterexample. -/
def c3DelState : PState :=
  ⟨[(1, GroupVal.par [(['a'], ['x']), (['b'], ['y'])])],
   [['1', 'a', '_', 'x'], ['1', 'b', '_', 'y']]⟩

/-- C3 counterexample: deleting slot 1a from the parallel group
{1: {a: x, b: y}} with the flatten-rename prompt DECLINED does not fail:
the operation succeeds and still commits the flattened configuration
{1: y}, leaving only the folders unrenamed.  The claim's "fails before
any config mutation" is false for the parallel-to-serial transition. -/
theorem c3_counterexample :
    deleteTask false false true (("1a").toList) c3DelState =
      Except.ok ⟨[(1, GroupVal.serial ['y'])], c3DelState.dirs⟩ ∧
    [(1, GroupVal.serial ['y'])] ≠ c3DelState.tasks := ⟨rfl, by decide⟩

/-- C3 (amended): declining the conversion rename does abort the
serial-to-parallel transitions before the config document is written:
Insert at an occupied serial order with a letter (proved for every such
state) and Move targeting one (evaluated on a concrete project) both
fail with the conversion error, leaving the document unchanged.  The
parallel-to-serial flatten in Delete/Move, however, does not fail on a
declined rename: the rename is skipped and the config change commits
(see the counterexample). -/
theorem c3_amended :
    (∀ (st : PState) (k : Nat) (ex nm : List Char) (L : Char) (gs : List MGroup),
      buildTaskGroups st = Except.ok gs →
      alLookup k st.tasks = some (GroupVal.serial ex) →
      k ≤ gs.length + 1 →
      isLowerCh L = true →
      (natToStr k ++ '_' :: ex) ∈ st.dirs →
      addTask false (natToStr k ++ [L]) nm st = Except.error Err.conversionDeclined) ∧
    moveTask true false true (("2").toList) (("1a").toList) c3MoveState =
      Except.error Err.conversionDeclined := by
  constructor
  · intro st k ex nm L gs hb hk hr hL hf
    unfold addTask
    simp only [hb, parsePosition_natToStr_letter k L hL, strToNat_natToStr]
    rw [if_neg (by omega)]
    simp only [hk]
    rw [if_pos hf, if_neg (by simp)]
  · rfl

/-- The groups build_task_groups returns for c3MoveState. -/
def c3Groups : List MGroup :=
  [⟨1, [⟨1, none, ['x'], ['1', '_', 'x']⟩]⟩, ⟨2, [⟨2, none, ['y'], ['2', '_', 'y']⟩]⟩]

/-- Witness for the amended C3 theorem: the general Insert conjunct applied
to the serial group {1: x} with the conversion declined. -/
theorem c3_amended_witness :
    addTask false (natToStr 1 ++ ['a']) ['z'] c3MoveState =
      Except.error Err.conversionDeclined :=
  c3_amended.1 c3MoveState 1 ['x'] ['z'] 'a' c3Groups (by rfl) (by rfl)
    (by omega) (by decide) (by decide)

/-! ### Claim C4: digit-string arithmetic -/

/-- The numeric value of a folder name's digit prefix (0 when the name
does not match the pattern). -/
def numOfName (d : List Char) : Nat :=
  match matchFolder d with
  | some x => strToNat x.1
  | none => 0

/-- The digit count of a folder name's numeric prefix (0 when the name
does not match the pattern). -/
def numLenOf (d : List Char) : Nat :=
  match matchFolder d with
  | some x => x.1.length
  | none => 0

theorem isDigitCh_bounds {c : Char} (h : isDigitCh c = true) :
    48 ≤ c.toNat ∧ c.toNat ≤ 57 := by
  simp only [isDigitCh, Bool.and_eq_true, decide_eq_true_eq] at h
  exact h

theorem isLowerCh_bounds {c : Char} (h : isLowerCh c = true) :
    97 ≤ c.toNat ∧ c.toNat ≤ 122 := by
  simp only [isLowerCh, Bool.and_eq_true, decide_eq_true_eq] at h
  exact h

theorem char_eq_of_toNat_eq {c d : Char} (h : c.toNat = d.toNat) : c = d :=
  Char.ext_iff.mpr (UInt32.ext_iff.mpr h)

theorem strToNatAcc_eq (s : List Char) :
    ∀ a, strToNatAcc a s = a * 10 ^ s.length + strToNat s := by
  induction s with
  | nil =>
    intro a
    rw [strToNatAcc_nil, show strToNat [] = 0 from rfl]
    simp
  | cons c cs ih =>
    intro a
    rw [strToNatAcc_cons, ih (10 * a + digitVal c),
      show strToNat (c :: cs) = strToNatAcc (10 * 0 + digitVal c) cs from rfl,
      ih (10 * 0 + digitVal c)]
    simp only [List.length_cons, pow_succ]
    ring

theorem strToNat_cons (c : Char) (cs : List Char) :
    strToNat (c :: cs) = digitVal c * 10 ^ cs.length + strToNat cs := by
  rw [show strToNat (c :: cs) = strToNatAcc (10 * 0 + digitVal c) cs from rfl,
    strToNatAcc_eq]
  ring

theorem strToNatAcc_lt (s : List Char) (hds : ∀ c ∈ s, isDigitCh c = true) :
    ∀ a, strToNatAcc a s < (a + 1) * 10 ^ s.length := by
  induction s with
  | nil =>
    intro a
    rw [strToNatAcc_nil]
    simp only [List.length_nil, pow_zero, Nat.mul_one]
    omega
  | cons c cs ih =>
    intro a
    rw [strToNatAcc_cons]
    have h9 : digitVal c ≤ 9 := by
      have := isDigitCh_bounds (hds c (List.mem_cons_self _ _))
      unfold digitVal
      omega
    have h1 := ih (fun c2 hc2 => hds c2 (List.mem_cons_of_mem _ hc2)) (10 * a + digitVal c)
    have h2 : (10 * a + digitVal c + 1) * 10 ^ cs.length ≤ ((a + 1) * 10) * 10 ^ cs.length :=
      Nat.mul_le_mul_right _ (by omega)
    have h3 : ((a + 1) * 10) * 10 ^ cs.length = (a + 1) * 10 ^ (c :: cs).length := by
      rw [List.length_cons, pow_succ]
      ring
    omega

theorem strToNat_lt_pow (s : List Char) (hds : ∀ c ∈ s, isDigitCh c = true) :
    strToNat s < 10 ^ s.length := by
  have := strToNatAcc_lt s hds 0
  simpa [strToNat] using this

theorem strToNat_le_of_ge_lex :
    ∀ (na nb sa sb : List Char), na.length = nb.length →
      (∀ c ∈ na, isDigitCh c = true) → (∀ c ∈ nb, isDigitCh c = true) →
      strLtB (na ++ sa) (nb ++ sb) = false → strToNat nb ≤ strToNat na := by
  intro na
  induction na with
  | nil =>
    intro nb sa sb hlen _ _ _
    have hnb : nb = [] := List.length_eq_zero.mp hlen.symm
    subst hnb
    exact Nat.le_refl _
  | cons c cs ih =>
    intro nb sa sb hlen hda hdb hlt
    cases nb with
    | nil => simp at hlen
    | cons e es =>
      rw [List.cons_append, List.cons_append] at hlt
      simp only [strLtB] at hlt
      have hlen2 : cs.length = es.length := by simpa using hlen
      have hc := isDigitCh_bounds (hda c (List.mem_cons_self _ _))
      have he := isDigitCh_bounds (hdb e (List.mem_cons_self _ _))
      by_cases h1 : c.toNat < e.toNat
      · rw [if_pos h1] at hlt
        exact Bool.noConfusion hlt
      · by_cases h2 : e.toNat < c.toNat
        · rw [strToNat_cons, strToNat_cons, hlen2]
          have hblt : strToNat es < 10 ^ es.length :=
            strToNat_lt_pow es (fun c2 hc2 => hdb c2 (List.mem_cons_of_mem _ hc2))
          have h11 : (digitVal e + 1) * 10 ^ es.length ≤ digitVal c * 10 ^ es.length :=
            Nat.mul_le_mul_right _ (by unfold digitVal; omega)
          have h12 : (digitVal e + 1) * 10 ^ es.length
              = digitVal e * 10 ^ es.length + 10 ^ es.length := by ring
          omega
        · rw [if_neg h1, if_neg h2] at hlt
          have hvv : digitVal c = digitVal e := by unfold digitVal; omega
          have hrec := ih es sa sb hlen2 (fun c2 hc2 => hda c2 (List.mem_cons_of_mem _ hc2))
            (fun c2 hc2 => hdb c2 (List.mem_cons_of_mem _ hc2)) hlt
          rw [strToNat_cons, strToNat_cons, hvv, hlen2]
          exact Nat.add_le_add (Nat.le_refl _) hrec

theorem digit_str_eq_of_val_eq :
    ∀ (na nb : List Char), na.length = nb.length →
      (∀ c ∈ na, isDigitCh c = true) → (∀ c ∈ nb, isDigitCh c = true) →
      strToNat na = strToNat nb → na = nb := by
  intro na
  induction na with
  | nil =>
    intro nb hlen _ _ _
    exact (List.length_eq_zero.mp hlen.symm).symm
  | cons c cs ih =>
    intro nb hlen hda hdb hval
    cases nb with
    | nil => simp at hlen
    | cons e es =>
      have hlen2 : cs.length = es.length := by simpa using hlen
      have hc := isDigitCh_bounds (hda c (List.mem_cons_self _ _))
      have he := isDigitCh_bounds (hdb e (List.mem_cons_self _ _))
      rw [strToNat_cons, strToNat_cons, hlen2] at hval
      have hbc : strToNat cs < 10 ^ es.length := by
        rw [← hlen2]
        exact strToNat_lt_pow cs (fun c2 hc2 => hda c2 (List.mem_cons_of_mem _ hc2))
      have hbe : strToNat es < 10 ^ es.length :=
        strToNat_lt_pow es (fun c2 hc2 => hdb c2 (List.mem_cons_of_mem _ hc2))
      have hvce : digitVal c = digitVal e := by
        by_contra hne
        rcases Nat.lt_or_ge (digitVal c) (digitVal e) with hlt | hge
        · have h11 : (digitVal c + 1) * 10 ^ es.length ≤ digitVal e * 10 ^ es.length :=
            Nat.mul_le_mul_right _ (by omega)
          have h12 : (digitVal c + 1) * 10 ^ es.length
              = digitVal c * 10 ^ es.length + 10 ^ es.length := by ring
          omega
        · have h11 : (digitVal e + 1) * 10 ^ es.length ≤ digitVal c * 10 ^ es.length :=
            Nat.mul_le_mul_right _ (by omega)
          have h12 : (digitVal e + 1) * 10 ^ es.length
              = digitVal e * 10 ^ es.length + 10 ^ es.length := by ring
          omega
      have hvs : strToNat cs = strToNat es := by
        rw [hvce] at hval
        omega
      have hce : c = e := by
        apply char_eq_of_toNat_eq
        unfold digitVal at hvce
        omega
      rw [hce, ih es hlen2 (fun c2 hc2 => hda c2 (List.mem_cons_of_mem _ hc2))
        (fun c2 hc2 => hdb c2 (List.mem_cons_of_mem _ hc2)) hvs]

theorem takeWhile_digits_append :
    ∀ (ds rest : List Char), (∀ c ∈ ds, isDigitCh c = true) →
      (∀ c cs, rest = c :: cs → isDigitCh c = false) →
      (ds ++ rest).takeWhile isDigitCh = ds ∧ (ds ++ rest).dropWhile isDigitCh = rest := by
  intro ds
  induction ds with
  | nil =>
    intro rest _ hr
    cases rest with
    | nil => exact ⟨rfl, rfl⟩
    | cons c cs =>
      constructor
      · simp [List.takeWhile_cons, hr c cs rfl]
      · simp [List.dropWhile_cons, hr c cs rfl]
  | cons d ds2 ih =>
    intro rest hd hr
    have hdd : isDigitCh d = true := hd d (List.mem_cons_self _ _)
    have h2 := ih rest (fun c hc => hd c (List.mem_cons_of_mem _ hc)) hr
    constructor
    · rw [List.cons_append, List.takeWhile_cons, hdd]
      simp [h2.1]
    · rw [List.cons_append, List.dropWhile_cons, hdd]
      simp [h2.2]

theorem matchFolder_spec {d : List Char} {x : List Char × List Char × List Char}
    (h : matchFolder d = some x) :
    d = x.1 ++ (x.2.1 ++ '_' :: x.2.2) ∧ x.1 ≠ [] ∧
      (∀ c ∈ x.1, isDigitCh c = true) ∧ (∀ c ∈ x.2.1, isLowerCh c = true) ∧
      x.2.2 ≠ [] := by
  unfold matchFolder at h
  by_cases h1 : (d.takeWhile isDigitCh).isEmpty = true
  · rw [if_pos h1] at h
    exact absurd h (by simp)
  · rw [if_neg h1] at h
    split at h
    · rename_i rest heq
      by_cases h2 : rest.isEmpty = true
      · rw [if_pos h2] at h
        exact absurd h (by simp)
      · rw [if_neg h2] at h
        injection h with h3
        subst h3
        have hd1 : d.takeWhile isDigitCh ++ d.dropWhile isDigitCh = d :=
          List.takeWhile_append_dropWhile isDigitCh d
        have hd2 : (d.dropWhile isDigitCh).takeWhile isLowerCh ++
            (d.dropWhile isDigitCh).dropWhile isLowerCh = d.dropWhile isDigitCh :=
          List.takeWhile_append_dropWhile isLowerCh (d.dropWhile isDigitCh)
        refine ⟨?_, ?_, ?_, ?_, ?_⟩
        · rw [← heq, hd2, hd1]
        · intro hnil
          exact h1 (List.isEmpty_iff.mpr hnil)
        · intro c hc
          exact List.mem_takeWhile_imp hc
        · intro c hc
          exact List.mem_takeWhile_imp hc
        · intro hnil
          exact h2 (List.isEmpty_iff.mpr hnil)
    · exact absurd h (by simp)

theorem mem_shiftAffected {start : Nat} {dirs : List (List Char)} {d : List Char}
    (h : d ∈ shiftAffected start dirs) :
    d ∈ dirs ∧ ∃ x, matchFolder d = some x ∧ start ≤ strToNat x.1 := by
  unfold shiftAffected at h
  have h2 := List.mem_filter.mp h
  refine ⟨h2.1, ?_⟩
  have h3 := h2.2
  cases hm : matchFolder d with
  | none =>
    rw [hm] at h3
    exact Bool.noConfusion h3
  | some x =>
    rw [hm] at h3
    simp only [decide_eq_true_eq] at h3
    exact ⟨x, rfl, h3⟩

theorem suffix_head_not_digit {letters rest : List Char}
    (hlow : ∀ c ∈ letters, isLowerCh c = true) :
    ∀ c cs, (letters ++ '_' :: rest) = c :: cs → isDigitCh c = false := by
  intro c cs hcc
  cases hxl : letters with
  | nil =>
    rw [hxl] at hcc
    simp only [List.nil_append] at hcc
    injection hcc with h9 _
    rw [← h9]
    decide
  | cons l0 ls =>
    rw [hxl] at hcc
    simp only [List.cons_append] at hcc
    injection hcc with h9 _
    rw [← h9]
    exact not_digit_of_lower (hlow l0 (by rw [hxl]; exact List.mem_cons_self _ _))

theorem c4_pair_facts {start len : Nat} {dirs : List (List Char)} {a b : List Char}
    (ha : a ∈ shiftAffected start dirs) (hb : b ∈ shiftAffected start dirs)
    (hlen : ∀ d ∈ shiftAffected start dirs, numLenOf d = len)
    (hge : strLtB a b = false) (hne : a ≠ b) :
    numOfName b ≤ numOfName a ∧ bumpName a ≠ b ∧ bumpName a ≠ bumpName b := by
  obtain ⟨-, xa, hma, -⟩ := mem_shiftAffected ha
  obtain ⟨-, xb, hmb, -⟩ := mem_shiftAffected hb
  obtain ⟨hdeca, hnea, hdiga, hlowa, hresta⟩ := matchFolder_spec hma
  obtain ⟨hdecb, hneb, hdigb, hlowb, hrestb⟩ := matchFolder_spec hmb
  have hlena : xa.1.length = len := by
    have h5 := hlen a ha
    simp only [numLenOf, hma] at h5
    exact h5
  have hlenb : xb.1.length = len := by
    have h5 := hlen b hb
    simp only [numLenOf, hmb] at h5
    exact h5
  have hheada := @suffix_head_not_digit xa.2.1 xa.2.2 hlowa
  have hheadb := @suffix_head_not_digit xb.2.1 xb.2.2 hlowb
  have hgeval : strToNat xb.1 ≤ strToNat xa.1 := by
    have hge2 := hge
    rw [hdeca, hdecb] at hge2
    exact strToNat_le_of_ge_lex xa.1 xb.1 (xa.2.1 ++ '_' :: xa.2.2) (xb.2.1 ++ '_' :: xb.2.2)
      (hlena.trans hlenb.symm) hdiga hdigb hge2
  have htwb := takeWhile_digits_append xb.1 (xb.2.1 ++ '_' :: xb.2.2) hdigb hheadb
  have hbumpa : bumpName a = natToStr (strToNat xa.1 + 1) ++ (xa.2.1 ++ '_' :: xa.2.2) := by
    simp only [bumpName, hma, List.append_assoc]
  have hbumpb : bumpName b = natToStr (strToNat xb.1 + 1) ++ (xb.2.1 ++ '_' :: xb.2.2) := by
    simp only [bumpName, hmb, List.append_assoc]
  have htwBumpA := takeWhile_digits_append (natToStr (strToNat xa.1 + 1))
    (xa.2.1 ++ '_' :: xa.2.2) (natToStr_digits _) hheada
  have htwBumpB := takeWhile_digits_append (natToStr (strToNat xb.1 + 1))
    (xb.2.1 ++ '_' :: xb.2.2) (natToStr_digits _) hheadb
  refine ⟨?_, ?_, ?_⟩
  · simp only [numOfName, hma, hmb]
    exact hgeval
  · intro hEq
    rw [hbumpa, hdecb] at hEq
    have h5 := congrArg (List.takeWhile isDigitCh) hEq
    rw [htwBumpA.1, htwb.1] at h5
    have h6 := congrArg strToNat h5
    rw [strToNat_natToStr] at h6
    omega
  · intro hEq
    rw [hbumpa, hbumpb] at hEq
    have h5 := congrArg (List.takeWhile isDigitCh) hEq
    rw [htwBumpA.1, htwBumpB.1] at h5
    have h6 := congrArg strToNat h5
    rw [strToNat_natToStr, strToNat_natToStr] at h6
    have h7 := congrArg (List.dropWhile isDigitCh) hEq
    rw [htwBumpA.2, htwBumpB.2] at h7
    have h8 : xa.1 = xb.1 :=
      digit_str_eq_of_val_eq xa.1 xb.1 (hlena.trans hlenb.symm) hdiga hdigb (by omega)
    apply hne
    rw [hdeca, hdecb, h8, h7]

/-! ### Claim C4 -/

/-- C4 counterexample: shifting from order 1 with folders 10_foo and 9_foo
on disk processes 9_foo FIRST (descending lexicographic name order puts
"9_foo" above "10_foo"), which is ascending numeric order, and its
target 10_foo collides with the other affected folder's current name. -/
theorem c4_counterexample :
    shiftRenames 1 [(("10_foo").toList), (("9_foo").toList)] =
      [((("9_foo").toList), (("10_foo").toList)),
       ((("10_foo").toList), (("11_foo").toList))] ∧
    ¬ List.Pairwise (fun p q : List Char × List Char =>
        numOfName q.1 ≤ numOfName p.1 ∧ p.2 ≠ q.1)
      (shiftRenames 1 [(("10_foo").toList), (("9_foo").toList)]) := by
  refine ⟨rfl, ?_⟩
  intro h
  have h2 := (List.pairwise_cons.mp h).1 _ (List.mem_cons_self _ _)
  exact absurd h2 (by decide)

/-- C4 (amended): a +1 shift renames the affected folders in descending
LEXICOGRAPHIC order of their names, not descending numeric order; when
every affected folder's numeric part has the same digit count, this
coincides with descending numeric order and then no rename's target
collides with another affected folder's current name (old or already
renamed).  With mixed digit counts the order and the collision freedom
both fail, as the counterexample shows. -/
theorem c4_amended (start : Nat) (dirs : List (List Char)) (len : Nat)
    (hnd : dirs.Nodup)
    (hlen : ∀ d ∈ shiftAffected start dirs, numLenOf d = len) :
    List.Pairwise (fun p q : List Char × List Char => strLtB p.1 q.1 = false)
        (shiftRenames start dirs) ∧
      List.Pairwise (fun p q : List Char × List Char => numOfName q.1 ≤ numOfName p.1)
        (shiftRenames start dirs) ∧
      List.Pairwise (fun p q : List Char × List Char => p.2 ≠ q.1 ∧ p.2 ≠ q.2)
        (shiftRenames start dirs) := by
  have hgelex : List.Pairwise (fun a b : List Char => strLtB a b = false)
      (sortBy strGeB (shiftAffected start dirs)) :=
    @pairwise_sortBy (List Char) strGeB (fun a b => strLtB a b = false)
      (by
        intro a b hab
        unfold strGeB at hab
        cases hlt : strLtB a b with
        | false => rfl
        | true => rw [hlt] at hab; exact Bool.noConfusion hab)
      (by
        intro a b hab
        unfold strGeB at hab
        apply strLtB_asymm
        cases hlt : strLtB a b with
        | false => rw [hlt] at hab; exact Bool.noConfusion hab
        | true => rfl)
      (fun a b c h1 h2 => strGe_trans h1 h2) _
  have hndS : (sortBy strGeB (shiftAffected start dirs)).Nodup :=
    ((sortBy_perm strGeB (shiftAffected start dirs)).nodup_iff).mpr (hnd.filter _)
  have hmain : List.Pairwise (fun a b : List Char =>
      (strLtB a b = false) ∧ numOfName b ≤ numOfName a ∧
        bumpName a ≠ b ∧ bumpName a ≠ bumpName b)
      (sortBy strGeB (shiftAffected start dirs)) := by
    refine List.Pairwise.imp_of_mem ?_ (hgelex.and hndS)
    intro a b ha hb hab
    exact ⟨hab.1, c4_pair_facts (mem_sortBy.mp ha) (mem_sortBy.mp hb) hlen hab.1 hab.2⟩
  unfold shiftRenames
  refine ⟨?_, ?_, ?_⟩
  · exact List.pairwise_map.mpr (hmain.imp (fun h => h.1))
  · exact List.pairwise_map.mpr (hmain.imp (fun h => h.2.1))
  · exact List.pairwise_map.mpr (hmain.imp (fun h => ⟨h.2.2.1, h.2.2.2⟩))

/-- Witness for the amended C4 theorem: two affected folders with
single-digit numeric parts. -/
theorem c4_amended_witness :
    List.Pairwise (fun p q : List Char × List Char => strLtB p.1 q.1 = false)
        (shiftRenames 1 [(("2_x").toList), (("1a_y").toList)]) ∧
      List.Pairwise (fun p q : List Char × List Char => numOfName q.1 ≤ numOfName p.1)
        (shiftRenames 1 [(("2_x").toList), (("1a_y").toList)]) ∧
      List.Pairwise (fun p q : List Char × List Char => p.2 ≠ q.1 ∧ p.2 ≠ q.2)
        (shiftRenames 1 [(("2_x").toList), (("1a_y").toList)]) :=
  c4_amended 1 [(("2_x").toList), (("1a_y").toList)] 1 (by decide) (by decide)

end MoHelper
